import Mathlib

/-!
# Watson core: shallow embedding and verification

This file embeds the core of the Watson data-encoding system — the stack
virtual machine (`pkg/vm/execution.go`), the lexer's byte↔opcode tables
(`pkg/lexer`), and the reflective host-value bridge (`pkg/types`) — as
executable Lean definitions, and proves or refutes the frozen claims about
them.

Modelling conventions:
* Go's `int64` is modelled as `Int`, with wrap-around made explicit through
  `toInt64` (reduction into `[-2^63, 2^63)`) at every arithmetic site;
  `uint64` is modelled as `Nat` reduced mod `2^64`; bytes are `Nat` values
  below 256.
* Go's `float64` is modelled by its IEEE-754 binary64 bit pattern (a `Nat`
  below `2^64`).  The only float operations the VM performs — building a
  float from bits (`math.Float64frombits`), negation, and the two constants
  `+Inf`/`NaN` — are exact bit-level operations, so this representation is
  faithful and `math.Float64bits` is the identity on the payload.
* Fallible Go code returns its error through the `Outcome` type; a Go
  runtime panic is modelled by the `Outcome.crashed` constructor.
* The VM mutates itself in place; this is modelled by explicit state
  passing (`M α := VM → Outcome α`).
-/

set_option linter.unusedVariables false

namespace Watson

/-- The 23 opcodes of the Watson VM, exactly the cases dispatched by
`VM.Feed` in `pkg/vm/execution.go` (the `vm.Op` enumeration itself lives in
a file outside `src/`; its constructors are taken from the `Feed` switch,
which handles all of them). -/
inductive Op where
  | Inew | Iinc | Ishl | Iadd | Ineg | Isht | Itof | Itou
  | Finf | Fnan | Fneg
  | Snew | Sadd
  | Onew | Oadd
  | Anew | Aadd
  | Bnew | Bneg
  | Nnew
  | Gdup | Gpop | Gswp
  deriving DecidableEq, Repr, Fintype

/-- The three VM error values declared at the top of
`pkg/vm/execution.go`: `ErrStackEmpty`, `ErrMaximumStackSizeExceeded`
(the spec's `StackOverflow`), and `ErrTypeMismatch`. -/
inductive Err where
  | stackEmpty
  | maxStackSizeExceeded
  | typeMismatch
  deriving DecidableEq, Repr

/-- Modelled from the spec: `types.Value` (the `types` package is not under
`src/`; spec §3 fixes it as a tagged union with exactly eight variants).
`vint` carries a signed 64-bit integer (an `Int` kept in range by
`toInt64`), `vuint` an unsigned 64-bit integer, `vfloat` the binary64 bit
pattern, `vstring` a byte sequence, `vobj` a byte-string-keyed mapping
(Go `map[string]*Value`, modelled as an association list with last-write-
wins insertion), `varr` an ordered sequence. -/
inductive Value where
  | vint (n : Int)
  | vuint (n : Nat)
  | vfloat (bits : Nat)
  | vstring (s : List Nat)
  | vobj (entries : List (List Nat × Value))
  | varr (elems : List Value)
  | vbool (b : Bool)
  | vnil

/-- Reduction of an integer into the signed 64-bit range `[-2^63, 2^63)`,
making Go's two's-complement wrap-around explicit. -/
def toInt64 (n : Int) : Int :=
  (n + 2 ^ 63) % 2 ^ 64 - 2 ^ 63

/-- Go's `uint64(n)` conversion of a signed 64-bit integer: the unsigned
reinterpretation, i.e. reduction mod `2^64`. -/
def toUint64 (n : Int) : Nat :=
  (n % 2 ^ 64).toNat

/-- Go map assignment `o[k] = v` on the association-list model of
`map[string]*Value`: overwrite the entry for `k` if present, otherwise
append it. -/
def insertKV : List (List Nat × Value) → List Nat → Value → List (List Nat × Value)
  | [], k, v => [(k, v)]
  | (k', v') :: t, k, v =>
    if k' = k then (k, v) :: t else (k', v') :: insertKV t k v

/-- Lookup in the association-list model of a Go map. -/
def lookupKV : List (List Nat × Value) → List Nat → Option Value
  | [], _ => none
  | (k', v') :: t, k => if k' = k then some v' else lookupKV t k

mutual
/-- Modelled from the spec: `types.Value.DeepCopy` (the `types` package is
not under `src/`; spec §4.1: "deep_copy() that clones containers
recursively (other kinds are value-copied)"). -/
def DeepCopy : Value → Value
  | .vint n => .vint n
  | .vuint n => .vuint n
  | .vfloat b => .vfloat b
  | .vstring s => .vstring s
  | .vobj es => .vobj (DeepCopyEntries es)
  | .varr xs => .varr (DeepCopyList xs)
  | .vbool b => .vbool b
  | .vnil => .vnil

/-- Deep copy of the element list of an Array value. -/
def DeepCopyList : List Value → List Value
  | [] => []
  | x :: xs => DeepCopy x :: DeepCopyList xs

/-- Deep copy of the entry list of an Object value. -/
def DeepCopyEntries : List (List Nat × Value) → List (List Nat × Value)
  | [] => []
  | (k, v) :: es => (k, DeepCopy v) :: DeepCopyEntries es
end

/-- Modelled from the spec: the `VM` struct (its declaring file is not
under `src/`; spec §4.2: "a stack of Values of fixed maximum capacity C
... and a stack pointer sp starting at −1").  The fixed-length Go array
`stack` together with `sp` is modelled by the list `elems` of the live
values, most recent first, so that `sp = elems.length - 1`; `cap` is
`len(vm.stack)`. -/
structure VM where
  cap : Nat
  elems : List Value

/-- Result of running one VM operation: the Go method either returns
normally (`ok`), returns an error (`err`), or panics (`crashed`); in every
case the receiver has been mutated to the recorded state. -/
inductive Outcome (α : Type) where
  | ok (vm : VM) (a : α)
  | err (vm : VM) (e : Err)
  | crashed (vm : VM)

/-- State-passing model of a method on `*VM`. -/
def M (α : Type) : Type := VM → Outcome α

instance : Monad M where
  pure a := fun vm => .ok vm a
  bind x f := fun vm =>
    match x vm with
    | .ok vm' a => f a vm'
    | .err vm' e => .err vm' e
    | .crashed vm' => .crashed vm'

/-- Return a Go error from a method. -/
def throwE {α : Type} (e : Err) : M α := fun vm => .err vm e

/-- A Go runtime panic. -/
def crash {α : Type} : M α := fun vm => .crashed vm

/-- `VM.push`: fails with `ErrMaximumStackSizeExceeded` when
`len(vm.stack)-1 <= vm.sp` (equivalently `cap ≤ elems.length`), otherwise
increments `sp` and stores the value. -/
def push (v : Value) : M Unit := fun vm =>
  if vm.cap ≤ vm.elems.length then .err vm .maxStackSizeExceeded
  else .ok ⟨vm.cap, v :: vm.elems⟩ ()

/-- `VM.pop`: fails with `ErrStackEmpty` when `sp < 0` (empty stack),
otherwise removes and returns the top value. -/
def pop : M Value := fun vm =>
  match vm.elems with
  | [] => .err vm .stackEmpty
  | v :: rest => .ok ⟨vm.cap, rest⟩ v

/-- `VM.Top`: peek at the top of the stack; `ErrStackEmpty` when empty. -/
def Top (vm : VM) : Except Err Value :=
  match vm.elems with
  | [] => .error .stackEmpty
  | v :: _ => .ok v

/-- `VM.popInt`: pop first, then check the kind. -/
def popInt : M Int := do
  let v ← pop
  match v with
  | .vint n => pure n
  | _ => throwE .typeMismatch

/-- `VM.popFloat` (returning the binary64 bit pattern). -/
def popFloat : M Nat := do
  let v ← pop
  match v with
  | .vfloat b => pure b
  | _ => throwE .typeMismatch

/-- `VM.popString`. -/
def popString : M (List Nat) := do
  let v ← pop
  match v with
  | .vstring s => pure s
  | _ => throwE .typeMismatch

/-- `VM.popObject`. -/
def popObject : M (List (List Nat × Value)) := do
  let v ← pop
  match v with
  | .vobj es => pure es
  | _ => throwE .typeMismatch

/-- `VM.popArray`. -/
def popArray : M (List Value) := do
  let v ← pop
  match v with
  | .varr xs => pure xs
  | _ => throwE .typeMismatch

/-- `VM.popBool`. -/
def popBool : M Bool := do
  let v ← pop
  match v with
  | .vbool b => pure b
  | _ => throwE .typeMismatch

/-- `VM.pushInt` (the argument is already a wrapped 64-bit value at every
call site). -/
def pushInt (n : Int) : M Unit := push (.vint n)

/-- `VM.pushUint`. -/
def pushUint (n : Nat) : M Unit := push (.vuint n)

/-- `VM.pushFloat`, taking the binary64 bit pattern. -/
def pushFloat (bits : Nat) : M Unit := push (.vfloat bits)

/-- Binary64 bit pattern of `math.Inf(1)`. -/
def infBits : Nat := 0x7FF0000000000000

/-- Binary64 bit pattern of Go's `math.NaN()`
(`Float64frombits(0x7FF8000000000001)`). -/
def nanBits : Nat := 0x7FF8000000000001

/-- IEEE-754 binary64 negation: flip the sign bit. -/
def fneg64 (bits : Nat) : Nat :=
  if bits < 2 ^ 63 then bits + 2 ^ 63 else bits - 2 ^ 63

/-- `feedInew`: push Int(0). -/
def feedInew : M Unit := pushInt 0

/-- `feedIinc`: pop Int n, push Int(n+1) with 64-bit wrap. -/
def feedIinc : M Unit := do
  let v ← popInt
  pushInt (toInt64 (v + 1))

/-- `feedIshl`: pop Int n, push Int(n<<1) with 64-bit wrap. -/
def feedIshl : M Unit := do
  let v ← popInt
  pushInt (toInt64 (v * 2))

/-- `feedIadd`: pop Int b, pop Int a, push Int(a+b) with 64-bit wrap. -/
def feedIadd : M Unit := do
  let b ← popInt
  let a ← popInt
  pushInt (toInt64 (a + b))

/-- `feedIneg`: pop Int n, push Int(-n) with 64-bit wrap. -/
def feedIneg : M Unit := do
  let v ← popInt
  pushInt (toInt64 (-v))

/-- Go's `a << b` on `int64` with a non-negative count: counts of 64 or
more produce 0, which the mod-`2^64` reduction delivers. -/
def shiftL64 (a : Int) (b : Nat) : Int := toInt64 (a * 2 ^ b)

/-- Go's `a >> b` on `int64` with a non-negative count: arithmetic
(sign-extending) shift, i.e. flooring division by `2^b`. -/
def shiftR64 (a : Int) (b : Nat) : Int := Int.fdiv a (2 ^ b)

/-- `feedIsht`: pop Int b, pop Int a; if `b >= 0` push `a << b`, else push
`a >> -b`.  The negation `-b` is itself a wrapping `int64` negation, and
Go panics at run time when a shift count is negative — which happens
exactly when `b = -2^63`, since then `-b` wraps back to `-2^63`. -/
def feedIsht : M Unit := do
  let b ← popInt
  let a ← popInt
  if 0 ≤ b then
    pushInt (shiftL64 a b.toNat)
  else
    let nb := toInt64 (-b)
    if nb < 0 then crash
    else pushInt (shiftR64 a nb.toNat)

/-- `feedItof`: pop Int n, push `math.Float64frombits(uint64(n))` — the
float whose bit pattern is the unsigned reinterpretation of n. -/
def feedItof : M Unit := do
  let n ← popInt
  pushFloat (toUint64 n)

/-- `feedItou`: pop Int n, push Uint(uint64(n)). -/
def feedItou : M Unit := do
  let n ← popInt
  pushUint (toUint64 n)

/-- `feedFinf`: push Float(+Inf). -/
def feedFinf : M Unit := pushFloat infBits

/-- `feedFnan`: push Float(NaN). -/
def feedFnan : M Unit := pushFloat nanBits

/-- `feedFneg`: pop Float x, push Float(-x). -/
def feedFneg : M Unit := do
  let x ← popFloat
  pushFloat (fneg64 x)

/-- `feedSnew`: push String(empty). -/
def feedSnew : M Unit := push (.vstring [])

/-- `feedSadd`: pop Int n, pop String s, push s with byte `n mod 256`
appended (Go's `byte(n)` conversion). -/
def feedSadd : M Unit := do
  let n ← popInt
  let s ← popString
  push (.vstring (s ++ [(n % 256).toNat]))

/-- `feedOnew`: push Object(empty). -/
def feedOnew : M Unit := push (.vobj [])

/-- `feedOadd`: pop any value v, pop String k, pop Object o, set
`o[string(k)] = v.DeepCopy()`, push o. -/
def feedOadd : M Unit := do
  let v ← pop
  let k ← popString
  let o ← popObject
  push (.vobj (insertKV o k (DeepCopy v)))

/-- `feedAnew`: push Array(empty). -/
def feedAnew : M Unit := push (.varr [])

/-- `feedAadd`: pop any x, pop Array a, append `x.DeepCopy()`, push a. -/
def feedAadd : M Unit := do
  let x ← pop
  let a ← popArray
  push (.varr (a ++ [DeepCopy x]))

/-- `feedBnew`: push Bool(false). -/
def feedBnew : M Unit := push (.vbool false)

/-- `feedBneg`: pop Bool v, push its negation. -/
def feedBneg : M Unit := do
  let v ← popBool
  push (.vbool (!v))

/-- `feedNnew`: push Nil. -/
def feedNnew : M Unit := push .vnil

/-- `feedGdup`: pop v, push v, push `v.DeepCopy()`. -/
def feedGdup : M Unit := do
  let v ← pop
  push v
  push (DeepCopy v)

/-- `feedGpop`: pop and discard. -/
def feedGpop : M Unit := do
  let _ ← pop
  pure ()

/-- `feedGswp`: pop a, pop b, push a, push b. -/
def feedGswp : M Unit := do
  let a ← pop
  let b ← pop
  push a
  push b

/-- `VM.Feed`: dispatch one opcode, in the order of the Go switch. -/
def Feed (op : Op) : M Unit :=
  match op with
  | .Inew => feedInew
  | .Iinc => feedIinc
  | .Ishl => feedIshl
  | .Iadd => feedIadd
  | .Ineg => feedIneg
  | .Isht => feedIsht
  | .Itof => feedItof
  | .Itou => feedItou
  | .Finf => feedFinf
  | .Fnan => feedFnan
  | .Fneg => feedFneg
  | .Snew => feedSnew
  | .Sadd => feedSadd
  | .Onew => feedOnew
  | .Oadd => feedOadd
  | .Anew => feedAnew
  | .Aadd => feedAadd
  | .Bnew => feedBnew
  | .Bneg => feedBneg
  | .Nnew => feedNnew
  | .Gdup => feedGdup
  | .Gpop => feedGpop
  | .Gswp => feedGswp

/-! ## Lexer (`pkg/lexer`) -/

/-- The lexer's `Mode`: "A, S are modes of the lexer"; the package doc
says Mode "determines the correspondence between Vm's instructions and
their representation". -/
inductive Mode where
  | A
  | S
  deriving DecidableEq, Repr

/-- Lookup in the association-list model of a Go `map[byte]vm.Op`. -/
def lookupTable : List (Nat × Op) → Nat → Option Op
  | [], _ => none
  | (b', op) :: t, b => if b' = b then some op else lookupTable t b

/-- `opTableA`, entry for entry from the source (bytes given by their
ASCII codes: B u b a A e i q t p ? ! ~ M @ s z o . * # %). -/
def opTableA : List (Nat × Op) :=
  [ (66, .Inew)   -- B
  , (117, .Iinc)  -- u
  , (98, .Ishl)   -- b
  , (97, .Iadd)   -- a
  , (65, .Ineg)   -- A
  , (101, .Isht)  -- e
  , (105, .Itof)  -- i
  , (113, .Finf)  -- q
  , (116, .Fnan)  -- t
  , (112, .Fneg)  -- p
  , (63, .Snew)   -- ?
  , (33, .Sadd)   -- !
  , (126, .Onew)  -- ~
  , (77, .Oadd)   -- M
  , (64, .Anew)   -- @
  , (115, .Aadd)  -- s
  , (122, .Bnew)  -- z
  , (111, .Bneg)  -- o
  , (46, .Nnew)   -- .
  , (42, .Gdup)   -- *
  , (35, .Gpop)   -- #
  , (37, .Gswp)   -- %
  ]

/-- `opTableS`, entry for entry from the source (bytes given by their
ASCII codes: S h a k r A z p b u $ - + g v ? ^ ! y / c :). -/
def opTableS : List (Nat × Op) :=
  [ (83, .Inew)   -- S
  , (104, .Iinc)  -- h
  , (97, .Ishl)   -- a
  , (107, .Iadd)  -- k
  , (114, .Ineg)  -- r
  , (65, .Isht)   -- A
  , (122, .Itof)  -- z
  , (112, .Finf)  -- p
  , (98, .Fnan)   -- b
  , (117, .Fneg)  -- u
  , (36, .Snew)   -- $
  , (45, .Sadd)   -- -
  , (43, .Onew)   -- +
  , (103, .Oadd)  -- g
  , (118, .Anew)  -- v
  , (63, .Aadd)   -- ?
  , (94, .Bnew)   -- ^
  , (33, .Bneg)   -- !
  , (121, .Nnew)  -- y
  , (47, .Gdup)   -- /
  , (99, .Gpop)   -- c
  , (58, .Gswp)   -- :
  ]

/-- `reversedTableA`, built by the package `init` from `opTableA` by
swapping each entry (the table is injective, so iteration order of the Go
map does not matter). -/
def reversedTableA : List (Op × Nat) := opTableA.map (fun p => (p.2, p.1))

/-- `reversedTableS`, likewise built from `opTableS`. -/
def reversedTableS : List (Op × Nat) := opTableS.map (fun p => (p.2, p.1))

/-- `readOp(m, b)` from the source: `op, ok = opTableA[b]` — the mode
argument `m` is ignored and table A is always consulted. -/
def readOp (m : Mode) (b : Nat) : Option Op :=
  lookupTable opTableA b

/-- Lookup in the reversed (opcode → byte) tables. -/
def lookupRev : List (Op × Nat) → Op → Option Nat
  | [], _ => none
  | (op', b) :: t, op => if op' = op then some b else lookupRev t op

/-- `showOp(m, op)` from the source: consult `reversedTableA` only
(ignoring `m`); `none` models the `panic` taken when the opcode has no
byte. -/
def showOp (m : Mode) (op : Op) : Option Nat :=
  lookupRev reversedTableA op

/-- `Lexer.Next` on a byte source modelled as the list of remaining bytes:
read one byte at a time, return the first byte that `readOp(A, ·)`
recognises together with the remaining input, skipping unrecognised bytes;
`none` models the `io.EOF` return at end of input. -/
def lexerNext : List Nat → Option (Op × List Nat)
  | [] => none
  | b :: rest =>
    match readOp .A b with
    | some op => some (op, rest)
    | none => lexerNext rest

/-! ## Reflective bridge (`pkg/types`, conversion to `Value`) -/

mutual
/-- Host (Go) values given to `ToValue`, one constructor per family of
dynamic types the source distinguishes: `hnil` is a nil `interface{}`;
`hint` covers int/int8/int16/int32/int64 (already sign-extended by the
`int64(v)` conversions); `huint` the unsigned family; `hfloat` carries the
binary64 bit pattern (float32 widened); `hmarshaler` is a value whose
dynamic type implements `Marshaler`, carrying the result of its
`MarshalWatson()` (in Go no builtin primitive type can implement an
interface, so this is disjoint from the primitive constructors); `hptr
none` is a nil pointer; `harr` a (non-nil) slice or array; `hmap` a
(non-nil) string-keyed map; `hstruct` a struct that does not implement
`Marshaler`, given by its fields. -/
inductive Host where
  | hnil
  | hbool (b : Bool)
  | hint (n : Int)
  | huint (n : Nat)
  | hstring (s : List Nat)
  | hfloat (bits : Nat)
  | hmarshaler (w : Value)
  | hptr (p : Option Host)
  | harr (xs : List Host)
  | hmap (es : List (List Nat × Host))
  | hstruct (fs : List SField)

/-- Modelled from the spec: a struct field as seen by `addFields` after
tag parsing (`parseTag` and the `tag` accessors are not under `src/`;
spec §4.5 fixes the tag shape `name,flag,…`).  `key` is `tag.Key()` — the
tag name, or the Go field name when untagged; `alwaysOmit` is
`tag.ShouldAlwaysOmit()` (tag name `-`); `omitEmpty` and `inline` are the
two flags; `value` is the field's value. -/
inductive SField where
  | mk (key : List Nat) (alwaysOmit : Bool) (omitEmpty : Bool)
      (inline : Bool) (value : Host)
end

mutual
/-- Go's `reflect.Value.IsZero` on the host values the model covers
(`harr`/`hmap` model non-nil slices and maps, which are never zero; the
zeroness of an opaque `Marshaler` value is not observable in the model and
is taken to be false; a struct is zero when all its fields are). -/
def isZero : Host → Bool
  | .hnil => true
  | .hbool b => !b
  | .hint n => n == 0
  | .huint n => n == 0
  | .hstring s => s.isEmpty
  | .hfloat bits => bits == 0
  | .hmarshaler _ => false
  | .hptr p => p.isNone
  | .harr _ => false
  | .hmap _ => false
  | .hstruct fs => isZeroFields fs

/-- All fields of a struct are zero values. -/
def isZeroFields : List SField → Bool
  | [] => true
  | .mk _ _ _ _ v :: rest => isZero v && isZeroFields rest
end

mutual
/-- `ToValue` from the source: nil check, then the type switch over the
builtin primitive types, then the `Marshaler` type assertion, then
reflection for everything else.  `none` models the panic reachable through
reflection (an `inline` field that is not a struct). -/
def ToValue : Host → Option Value
  | .hnil => some .vnil
  | .hbool b => some (.vbool b)
  | .hint n => some (.vint n)
  | .huint n => some (.vuint n)
  | .hstring s => some (.vstring s)
  | .hfloat bits => some (.vfloat bits)
  | .hmarshaler w => some w
  | h => ToValueByReflection h
termination_by h => (sizeOf h, 2)

/-- `ToValueByReflection` from the source: `isMarshaler` first, then the
primitive kinds, then slices/arrays, structs, the nil check (which
catches nil pointers, placed after marshalers and before `isPtr`), then
pointers and maps. -/
def ToValueByReflection : Host → Option Value
  | .hmarshaler w => some w
  | .hint n => some (.vint n)
  | .huint n => some (.vuint n)
  | .hfloat bits => some (.vfloat bits)
  | .hbool b => some (.vbool b)
  | .hstring s => some (.vstring s)
  | .harr xs => sliceOrArrayToValueByReflection xs
  | .hstruct fs => structToValueByReflection fs
  | .hnil => some .vnil
  | .hptr none => some .vnil
  | .hptr (some h) => ToValue h
  | .hmap es =>
    match reflectMapToValue [] es with
    | none => none
    | some o => some (.vobj o)
termination_by h => (sizeOf h, 1)

/-- `sliceOrArrayToValueByReflection`: convert each element in order. -/
def sliceOrArrayToValueByReflection (xs : List Host) : Option Value :=
  match ToValueList xs with
  | none => none
  | some vs => some (.varr vs)
termination_by (sizeOf xs, 1)

/-- Element-wise conversion of a slice. -/
def ToValueList : List Host → Option (List Value)
  | [] => some []
  | x :: xs =>
    match ToValue x with
    | none => none
    | some w =>
      match ToValueList xs with
      | none => none
      | some ws => some (w :: ws)
termination_by xs => (sizeOf xs, 0)

/-- `reflectMapToValue`: build the object by Go map assignment
`obj[k] = ToValue(v)` over the entries. -/
def reflectMapToValue (acc : List (List Nat × Value)) :
    List (List Nat × Host) → Option (List (List Nat × Value))
  | [] => some (acc)
  | (k, hv) :: es =>
    match ToValue hv with
    | none => none
    | some w => reflectMapToValue (insertKV acc k w) es
termination_by es => (sizeOf es, 0)

/-- `structToValueByReflection`: a fresh object populated by
`addFields`. -/
def structToValueByReflection (fs : List SField) : Option Value :=
  match addFields [] fs with
  | none => none
  | some o => some (.vobj o)
termination_by (sizeOf fs, 1)

/-- `addFields` from the source: skip a field whose tag says always omit
(`-`); skip a field with `omitempty` whose value is zero; recurse into the
fields of an `inline` field (which must be a struct — `none` models the
`NumField` panic otherwise); otherwise assign `obj[name] = ToValue(v)`. -/
def addFields (obj : List (List Nat × Value)) :
    List SField → Option (List (List Nat × Value))
  | [] => some obj
  | .mk key aOmit oEmpty inl v :: rest =>
    if aOmit then addFields obj rest
    else if oEmpty && isZero v then addFields obj rest
    else if inl then
      match v with
      | .hstruct gs =>
        match addFields obj gs with
        | none => none
        | some o2 => addFields o2 rest
      | _ => none
    else
      match ToValue v with
      | none => none
      | some w => addFields (insertKV obj key w) rest
termination_by fs => (sizeOf fs, 0)
end

/-! ## Spec-side description of the struct encoding (for C8) -/

/-- Modelled from the spec: the flat list of (key, field value) entries a
struct contributes to its Object, in field order — a field whose tag name
is `-` is always omitted; a field tagged `omitempty` whose value is its
type's zero value is omitted; a field tagged `inline` must itself be a
record and contributes its own entries (recursively) in place; every
other field contributes one entry under its key.  `none` is the non-record
`inline` failure. -/
def specEntries : List SField → Option (List (List Nat × Host))
  | [] => some []
  | .mk key aOmit oEmpty inl v :: rest =>
    if aOmit then specEntries rest
    else if oEmpty && isZero v then specEntries rest
    else if inl then
      match v with
      | .hstruct gs =>
        match specEntries gs with
        | none => none
        | some es1 =>
          match specEntries rest with
          | none => none
          | some es2 => some (es1 ++ es2)
      | _ => none
    else
      match specEntries rest with
      | none => none
      | some es2 => some ((key, v) :: es2)
termination_by fs => sizeOf fs

/-- Insert a list of converted entries into an object in order, by Go map
assignment. -/
def insertEntries (obj : List (List Nat × Value)) :
    List (List Nat × Host) → Option (List (List Nat × Value))
  | [] => some obj
  | (k, hv) :: es =>
    match ToValue hv with
    | none => none
    | some w => insertEntries (insertKV obj k w) es

/-- `Option.bind` written as a match, matching the shape of the
definitions above. -/
def obind {A B : Type} (x : Option A) (f : A → Option B) : Option B :=
  match x with
  | none => none
  | some a => f a

/-! ## Heap model (for C6)

The pure VM model above cannot express aliasing, which is exactly what
`DeepCopy` exists to prevent.  This section gives a heap-level model of
`feedOadd`: stack slots hold addresses into a heap of nodes, container
nodes hold the addresses of their children (Go's `*Value` pointers), and
deep copy allocates fresh nodes for the whole reachable tree.  `valAtH`
reads a value back out of the heap; both it and `deepCopyH` carry fuel
because heap recursion is not structural (the fuel only limits depth: no
acyclic Go value needs more fuel than its depth).  Go mutates the popped
map in place and wraps it in a fresh `*Value`; the model allocates a fresh
object node carrying the updated entry list, which is what the pushed
object address refers to. -/

/-- A heap node: one Go `types.Value` allocation, with container children
stored as heap addresses. -/
inductive HNode where
  | nInt (n : Int)
  | nUint (n : Nat)
  | nFloat (bits : Nat)
  | nString (s : List Nat)
  | nBool (b : Bool)
  | nNil
  | nArr (elems : List Nat)
  | nObj (entries : List (List Nat × Nat))
  deriving DecidableEq, Repr

/-- A heap: node at address `i` is entry `i`; allocation appends. -/
abbrev Heap : Type := List HNode

/-- Allocate a fresh node, returning the new heap and the fresh
address. -/
def allocH (h : Heap) (nd : HNode) : Heap × Nat :=
  (h ++ [nd], h.length)

/-- Overwrite the node at an address (mutation of a Go value through a
pointer). -/
def setH (h : Heap) (a : Nat) (nd : HNode) : Heap :=
  List.set h a nd

/-- Address lookup. -/
def getH (h : Heap) (a : Nat) : Option HNode :=
  h[a]?

/-- Go map assignment on address-valued object entries. -/
def insertAddr : List (List Nat × Nat) → List Nat → Nat → List (List Nat × Nat)
  | [], k, c => [(k, c)]
  | (k', c') :: t, k, c =>
    if k' = k then (k, c) :: t else (k', c') :: insertAddr t k c

/-- Lookup on address-valued object entries. -/
def lookupAddr : List (List Nat × Nat) → List Nat → Option Nat
  | [], _ => none
  | (k', c') :: t, k => if k' = k then some c' else lookupAddr t k

/-- Convert a list of child addresses with a given reader. -/
def valListH (va : Heap → Nat → Option Value) :
    Heap → List Nat → Option (List Value)
  | _, [] => some []
  | h, a :: as =>
    match va h a with
    | none => none
    | some v =>
      match valListH va h as with
      | none => none
      | some vs => some (v :: vs)

/-- Convert object entries with a given reader. -/
def valEntriesH (va : Heap → Nat → Option Value) :
    Heap → List (List Nat × Nat) → Option (List (List Nat × Value))
  | _, [] => some []
  | h, (k, a) :: es =>
    match va h a with
    | none => none
    | some v =>
      match valEntriesH va h es with
      | none => none
      | some ves => some ((k, v) :: ves)

/-- Read the pure value rooted at an address; the fuel bounds the depth
(no acyclic value needs more fuel than its depth). -/
def valAtH : Nat → Heap → Nat → Option Value
  | 0, _, _ => none
  | f + 1, h, a =>
    match getH h a with
    | none => none
    | some (.nInt n) => some (.vint n)
    | some (.nUint n) => some (.vuint n)
    | some (.nFloat b) => some (.vfloat b)
    | some (.nString s) => some (.vstring s)
    | some (.nBool b) => some (.vbool b)
    | some .nNil => some .vnil
    | some (.nArr as) =>
      match valListH (valAtH f) h as with
      | none => none
      | some vs => some (.varr vs)
    | some (.nObj es) =>
      match valEntriesH (valAtH f) h es with
      | none => none
      | some ves => some (.vobj ves)

/-- Deep-copy a list of children with a given copier, threading the heap
left to right. -/
def copyListH (cp : Heap → Nat → Option (Heap × Nat)) :
    Heap → List Nat → Option (Heap × List Nat)
  | h, [] => some (h, [])
  | h, a :: as =>
    match cp h a with
    | none => none
    | some (h1, a2) =>
      match copyListH cp h1 as with
      | none => none
      | some (h2, as2) => some (h2, a2 :: as2)

/-- Deep-copy object entries with a given copier (keys are Go strings,
copied by value). -/
def copyEntriesH (cp : Heap → Nat → Option (Heap × Nat)) :
    Heap → List (List Nat × Nat) → Option (Heap × List (List Nat × Nat))
  | h, [] => some (h, [])
  | h, (k, a) :: es =>
    match cp h a with
    | none => none
    | some (h1, a2) =>
      match copyEntriesH cp h1 es with
      | none => none
      | some (h2, es2) => some (h2, (k, a2) :: es2)

/-- Modelled from the spec: `types.Value.DeepCopy` at the heap level
(spec §4.1: containers cloned recursively, other kinds value-copied) —
every visited node is reallocated fresh, containers recursively.  The
fuel bounds the depth. -/
def deepCopyH : Nat → Heap → Nat → Option (Heap × Nat)
  | 0, _, _ => none
  | f + 1, h, a =>
    match getH h a with
    | none => none
    | some (.nArr as) =>
      match copyListH (deepCopyH f) h as with
      | none => none
      | some (h1, as2) => some (allocH h1 (.nArr as2))
    | some (.nObj es) =>
      match copyEntriesH (deepCopyH f) h es with
      | none => none
      | some (h1, es2) => some (allocH h1 (.nObj es2))
    | some nd => some (allocH h nd)

/-- A VM whose stack slots hold heap addresses. -/
structure HVM where
  cap : Nat
  elems : List Nat
  heap : Heap

/-- Result of a heap-level operation. -/
inductive HRes where
  | okH (s : HVM)
  | errH (s : HVM) (e : Err)

/-- `feedOadd` at the heap level: pop the value address, pop and check the
String key, pop and check the Object, deep-copy the value, store the copy
under the key and push the updated object.  `none` is a model artifact
(dangling address or exhausted fuel), not a program behavior. -/
def feedOaddH (fuel : Nat) (s : HVM) : Option HRes :=
  match s.elems with
  | [] => some (.errH s .stackEmpty)
  | av :: tail1 =>
    match tail1 with
    | [] => some (.errH ⟨s.cap, [], s.heap⟩ .stackEmpty)
    | ak :: tail2 =>
      match getH s.heap ak with
      | none => none
      | some (.nString kb) =>
        match tail2 with
        | [] => some (.errH ⟨s.cap, [], s.heap⟩ .stackEmpty)
        | ao :: rest =>
          match getH s.heap ao with
          | none => none
          | some (.nObj es) =>
            match deepCopyH fuel s.heap av with
            | none => none
            | some (h1, c) =>
              let alloc := allocH h1 (.nObj (insertAddr es kb c))
              if s.cap ≤ rest.length then
                some (.errH ⟨s.cap, rest, alloc.1⟩ .maxStackSizeExceeded)
              else
                some (.okH ⟨s.cap, alloc.2 :: rest, alloc.1⟩)
          | some _ => some (.errH ⟨s.cap, rest, s.heap⟩ .typeMismatch)
      | some _ => some (.errH ⟨s.cap, tail2, s.heap⟩ .typeMismatch)

/-- Two heaps agree on the address window `[lo, hi)`. -/
def AgreeOn (h1 h2 : Heap) (lo hi : Nat) : Prop :=
  ∀ i, lo ≤ i → i < hi → getH h2 i = getH h1 i

/-- The freshness property of `deepCopyH` at a given fuel: the copy only
extends the heap, the new root is a fresh address, and reading the copy
back does not depend on any address below the old heap top. -/
def CopyGood (f : Nat) : Prop :=
  ∀ h a h1 a2, deepCopyH f h a = some (h1, a2) →
    (∃ tl, h1 = h ++ tl) ∧ h.length ≤ a2
    ∧ a2 < h1.length
    ∧ ∀ h2, h1.length ≤ h2.length →
        AgreeOn h1 h2 h.length h1.length →
        ∀ g, valAtH g h2 a2 = valAtH g h1 a2

/-- `CopyGood` for child lists. -/
def CopyGoodList (f : Nat) : Prop :=
  ∀ h as h1 as2, copyListH (deepCopyH f) h as = some (h1, as2) →
    (∃ tl, h1 = h ++ tl)
    ∧ ∀ h2, h1.length ≤ h2.length →
        AgreeOn h1 h2 h.length h1.length →
        ∀ g, valListH (valAtH g) h2 as2 = valListH (valAtH g) h1 as2

/-- `CopyGood` for entry lists. -/
def CopyGoodEntries (f : Nat) : Prop :=
  ∀ h es h1 es2, copyEntriesH (deepCopyH f) h es = some (h1, es2) →
    (∃ tl, h1 = h ++ tl)
    ∧ ∀ h2, h1.length ≤ h2.length →
        AgreeOn h1 h2 h.length h1.length →
        ∀ g, valEntriesH (valAtH g) h2 es2 = valEntriesH (valAtH g) h1 es2

/-! ## Helper lemmas -/

mutual
/-- On the pure value model a deep copy is equal to the original (the copy
matters only for aliasing, which the heap model below makes explicit). -/
theorem DeepCopy_eq : (v : Value) → DeepCopy v = v
  | .vint _ => rfl
  | .vuint _ => rfl
  | .vfloat _ => rfl
  | .vstring _ => rfl
  | .vobj es => by rw [DeepCopy, DeepCopyEntries_eq es]
  | .varr xs => by rw [DeepCopy, DeepCopyList_eq xs]
  | .vbool _ => rfl
  | .vnil => rfl

theorem DeepCopyList_eq : (xs : List Value) → DeepCopyList xs = xs
  | [] => rfl
  | x :: xs => by rw [DeepCopyList, DeepCopy_eq x, DeepCopyList_eq xs]

theorem DeepCopyEntries_eq :
    (es : List (List Nat × Value)) → DeepCopyEntries es = es
  | [] => rfl
  | (k, v) :: es => by rw [DeepCopyEntries, DeepCopy_eq v, DeepCopyEntries_eq es]
end

theorem mBind_ok {α β : Type} {x : M α} {f : α → M β} {vm vm' : VM} {a : α}
    (h : x vm = .ok vm' a) : (x >>= f) vm = f a vm' := by
  show (match x vm with
    | .ok vm' a => f a vm'
    | .err vm' e => .err vm' e
    | .crashed vm' => .crashed vm') = f a vm'
  rw [h]

theorem mBind_err {α β : Type} {x : M α} {f : α → M β} {vm vm' : VM} {e : Err}
    (h : x vm = .err vm' e) : (x >>= f) vm = .err vm' e := by
  show (match x vm with
    | .ok vm' a => f a vm'
    | .err vm' e => .err vm' e
    | .crashed vm' => .crashed vm') = Outcome.err vm' e
  rw [h]

theorem pop_cons {cap : Nat} {v : Value} {rest : List Value} :
    pop ⟨cap, v :: rest⟩ = .ok ⟨cap, rest⟩ v := rfl

theorem popInt_not_int {cap : Nat} {v : Value} {rest : List Value}
    (h : ∀ n, v ≠ .vint n) :
    popInt ⟨cap, v :: rest⟩ = .err ⟨cap, rest⟩ .typeMismatch := by
  cases v with
  | vint n => exact absurd rfl (h n)
  | vuint _ => rfl
  | vfloat _ => rfl
  | vstring _ => rfl
  | vobj _ => rfl
  | varr _ => rfl
  | vbool _ => rfl
  | vnil => rfl

theorem popString_not_string {cap : Nat} {v : Value} {rest : List Value}
    (h : ∀ s, v ≠ .vstring s) :
    popString ⟨cap, v :: rest⟩ = .err ⟨cap, rest⟩ .typeMismatch := by
  cases v with
  | vstring s => exact absurd rfl (h s)
  | vint _ => rfl
  | vuint _ => rfl
  | vfloat _ => rfl
  | vobj _ => rfl
  | varr _ => rfl
  | vbool _ => rfl
  | vnil => rfl

theorem popFloat_not_float {cap : Nat} {v : Value} {rest : List Value}
    (h : ∀ b, v ≠ .vfloat b) :
    popFloat ⟨cap, v :: rest⟩ = .err ⟨cap, rest⟩ .typeMismatch := by
  cases v with
  | vfloat b => exact absurd rfl (h b)
  | vint _ => rfl
  | vuint _ => rfl
  | vstring _ => rfl
  | vobj _ => rfl
  | varr _ => rfl
  | vbool _ => rfl
  | vnil => rfl

theorem popBool_not_bool {cap : Nat} {v : Value} {rest : List Value}
    (h : ∀ b, v ≠ .vbool b) :
    popBool ⟨cap, v :: rest⟩ = .err ⟨cap, rest⟩ .typeMismatch := by
  cases v with
  | vbool b => exact absurd rfl (h b)
  | vint _ => rfl
  | vuint _ => rfl
  | vfloat _ => rfl
  | vstring _ => rfl
  | vobj _ => rfl
  | varr _ => rfl
  | vnil => rfl

theorem popArray_not_array {cap : Nat} {v : Value} {rest : List Value}
    (h : ∀ xs, v ≠ .varr xs) :
    popArray ⟨cap, v :: rest⟩ = .err ⟨cap, rest⟩ .typeMismatch := by
  cases v with
  | varr xs => exact absurd rfl (h xs)
  | vint _ => rfl
  | vuint _ => rfl
  | vfloat _ => rfl
  | vstring _ => rfl
  | vobj _ => rfl
  | vbool _ => rfl
  | vnil => rfl

theorem push_lt {cap : Nat} {elems : List Value} {v : Value}
    (h : elems.length < cap) :
    push v ⟨cap, elems⟩ = .ok ⟨cap, v :: elems⟩ () := by
  simp only [push, if_neg (not_le.mpr h)]

/-- Inserting with a Go map assignment makes the inserted value the one
found at the key, whether or not the key was already present. -/
theorem lookupKV_insertKV :
    (es : List (List Nat × Value)) → (k : List Nat) → (v : Value) →
    lookupKV (insertKV es k v) k = some v
  | [], k, v => by simp [insertKV, lookupKV]
  | (k', v') :: t, k, v => by
    by_cases h : k' = k
    · simp [insertKV, h, lookupKV]
    · simp [insertKV, h, lookupKV]
      exact lookupKV_insertKV t k v

theorem insertEntries_append :
    (es1 es2 : List (List Nat × Host)) → (obj : List (List Nat × Value)) →
    insertEntries obj (es1 ++ es2) =
      obind (insertEntries obj es1) (fun o => insertEntries o es2)
  | [], es2, obj => by simp [insertEntries, obind]
  | (k, hv) :: es1, es2, obj => by
    simp only [List.cons_append, insertEntries]
    cases ToValue hv with
    | none => simp [obind]
    | some w => simp [obind, insertEntries_append es1 es2]

/-- Unfolding of `addFields` at a field whose tag name is `-`. -/
theorem addFields_cons_aOmit (key : List Nat) (oEmpty inl : Bool) (v : Host)
    (rest : List SField) (obj : List (List Nat × Value)) :
    addFields obj (.mk key true oEmpty inl v :: rest) = addFields obj rest := by
  rw [addFields.eq_def]
  dsimp only
  simp

/-- Unfolding of `addFields` at an `omitempty` field with a zero value. -/
theorem addFields_cons_zero (key : List Nat) (inl : Bool) (v : Host)
    (rest : List SField) (obj : List (List Nat × Value))
    (h : isZero v = true) :
    addFields obj (.mk key false true inl v :: rest) = addFields obj rest := by
  rw [addFields.eq_def]
  dsimp only
  simp [h]

/-- Unfolding of `addFields` at an `inline` struct field. -/
theorem addFields_cons_inline (key : List Nat) (oEmpty : Bool)
    (gs rest : List SField) (obj : List (List Nat × Value))
    (h : (oEmpty && isZero (Host.hstruct gs)) = false) :
    addFields obj (.mk key false oEmpty true (.hstruct gs) :: rest) =
      (match addFields obj gs with
        | none => none
        | some o2 => addFields o2 rest) := by
  rw [addFields.eq_def]
  dsimp only
  simp [h]

/-- Unfolding of `addFields` at an `inline` field that is not a struct:
the `NumField` panic. -/
theorem addFields_cons_inline_nonstruct (key : List Nat) (oEmpty : Bool)
    (v : Host) (rest : List SField) (obj : List (List Nat × Value))
    (h : (oEmpty && isZero v) = false) (hv : ∀ gs, v ≠ .hstruct gs) :
    addFields obj (.mk key false oEmpty true v :: rest) = none := by
  rw [addFields.eq_def]
  dsimp only
  simp only [h]
  cases v with
  | hstruct gs => exact absurd rfl (hv gs)
  | hnil => simp
  | hbool b => simp
  | hint n => simp
  | huint n => simp
  | hstring s => simp
  | hfloat bits => simp
  | hmarshaler w => simp
  | hptr p => simp
  | harr xs => simp
  | hmap es => simp

/-- Unfolding of `addFields` at an ordinary emitted field. -/
theorem addFields_cons_plain (key : List Nat) (oEmpty : Bool) (v : Host)
    (rest : List SField) (obj : List (List Nat × Value))
    (h : (oEmpty && isZero v) = false) :
    addFields obj (.mk key false oEmpty false v :: rest) =
      (match ToValue v with
        | none => none
        | some w => addFields (insertKV obj key w) rest) := by
  rw [addFields.eq_def]
  dsimp only
  simp [h]

/-- Unfolding of `specEntries` at a field whose tag name is `-`. -/
theorem specEntries_cons_aOmit (key : List Nat) (oEmpty inl : Bool) (v : Host)
    (rest : List SField) :
    specEntries (.mk key true oEmpty inl v :: rest) = specEntries rest := by
  rw [specEntries.eq_def]
  dsimp only
  simp

/-- Unfolding of `specEntries` at an `omitempty` field with a zero
value. -/
theorem specEntries_cons_zero (key : List Nat) (inl : Bool) (v : Host)
    (rest : List SField) (h : isZero v = true) :
    specEntries (.mk key false true inl v :: rest) = specEntries rest := by
  rw [specEntries.eq_def]
  dsimp only
  simp [h]

/-- Unfolding of `specEntries` at an `inline` struct field. -/
theorem specEntries_cons_inline (key : List Nat) (oEmpty : Bool)
    (gs rest : List SField)
    (h : (oEmpty && isZero (Host.hstruct gs)) = false) :
    specEntries (.mk key false oEmpty true (.hstruct gs) :: rest) =
      (match specEntries gs with
        | none => none
        | some es1 =>
          match specEntries rest with
          | none => none
          | some es2 => some (es1 ++ es2)) := by
  rw [specEntries.eq_def]
  dsimp only
  simp [h]

/-- Unfolding of `specEntries` at an `inline` field that is not a
struct. -/
theorem specEntries_cons_inline_nonstruct (key : List Nat) (oEmpty : Bool)
    (v : Host) (rest : List SField)
    (h : (oEmpty && isZero v) = false) (hv : ∀ gs, v ≠ .hstruct gs) :
    specEntries (.mk key false oEmpty true v :: rest) = none := by
  rw [specEntries.eq_def]
  dsimp only
  simp only [h]
  cases v with
  | hstruct gs => exact absurd rfl (hv gs)
  | hnil => simp
  | hbool b => simp
  | hint n => simp
  | huint n => simp
  | hstring s => simp
  | hfloat bits => simp
  | hmarshaler w => simp
  | hptr p => simp
  | harr xs => simp
  | hmap es => simp

/-- Unfolding of `specEntries` at an ordinary emitted field. -/
theorem specEntries_cons_plain (key : List Nat) (oEmpty : Bool) (v : Host)
    (rest : List SField)
    (h : (oEmpty && isZero v) = false) :
    specEntries (.mk key false oEmpty false v :: rest) =
      (match specEntries rest with
        | none => none
        | some es2 => some ((key, v) :: es2)) := by
  rw [specEntries.eq_def]
  dsimp only
  simp [h]

/-- The accumulator-threading `addFields` agrees with the spec-side
flatten-then-insert description, generalised over the starting object. -/
theorem addFields_eq_specEntries_aux :
    ∀ (N : Nat) (fs : List SField), sizeOf fs ≤ N →
    ∀ obj, addFields obj fs = obind (specEntries fs) (insertEntries obj)
  | _, [], _, obj => by simp [addFields, specEntries, insertEntries, obind]
  | 0, f :: rest, h, obj => by
    exfalso
    have h1 : 0 < sizeOf (f :: rest) := by cases f; simp
    omega
  | N + 1, .mk key aOmit oEmpty inl v :: rest, h, obj => by
    have hrest : sizeOf rest ≤ N := by
      simp at h; omega
    cases aOmit with
    | true =>
      rw [addFields_cons_aOmit, specEntries_cons_aOmit]
      exact addFields_eq_specEntries_aux N rest hrest obj
    | false =>
      cases hz : oEmpty && isZero v with
      | true =>
        rw [Bool.and_eq_true] at hz
        obtain ⟨ho, hzv⟩ := hz
        subst ho
        rw [addFields_cons_zero _ _ _ _ _ hzv, specEntries_cons_zero _ _ _ _ hzv]
        exact addFields_eq_specEntries_aux N rest hrest obj
      | false =>
        cases inl with
        | true =>
          cases v with
          | hstruct gs =>
            have hgs : sizeOf gs ≤ N := by
              simp at h; omega
            rw [addFields_cons_inline _ _ _ _ _ hz,
              specEntries_cons_inline _ _ _ _ hz]
            rw [addFields_eq_specEntries_aux N gs hgs obj]
            cases hsg : specEntries gs with
            | none => simp [obind]
            | some es1 =>
              dsimp only [obind]
              cases hie : insertEntries obj es1 with
              | none =>
                cases hsr : specEntries rest with
                | none => simp [obind]
                | some es2 =>
                  simp only [obind]
                  rw [insertEntries_append es1 es2 obj, hie]
                  simp [obind]
              | some o2 =>
                rw [show (match (some o2 : Option (List (List Nat × Value))) with
                      | none => none
                      | some o3 => addFields o3 rest) = addFields o2 rest
                    from rfl]
                rw [addFields_eq_specEntries_aux N rest hrest o2]
                cases hsr : specEntries rest with
                | none => simp [obind]
                | some es2 =>
                  simp only [obind]
                  rw [insertEntries_append es1 es2 obj, hie]
                  simp [obind]
          | hnil =>
            rw [addFields_cons_inline_nonstruct _ _ _ _ _ hz
                (fun gs hh => Host.noConfusion hh),
              specEntries_cons_inline_nonstruct _ _ _ _ hz
                (fun gs hh => Host.noConfusion hh)]
            simp [obind]
          | hbool b =>
            rw [addFields_cons_inline_nonstruct _ _ _ _ _ hz
                (fun gs hh => Host.noConfusion hh),
              specEntries_cons_inline_nonstruct _ _ _ _ hz
                (fun gs hh => Host.noConfusion hh)]
            simp [obind]
          | hint n =>
            rw [addFields_cons_inline_nonstruct _ _ _ _ _ hz
                (fun gs hh => Host.noConfusion hh),
              specEntries_cons_inline_nonstruct _ _ _ _ hz
                (fun gs hh => Host.noConfusion hh)]
            simp [obind]
          | huint n =>
            rw [addFields_cons_inline_nonstruct _ _ _ _ _ hz
                (fun gs hh => Host.noConfusion hh),
              specEntries_cons_inline_nonstruct _ _ _ _ hz
                (fun gs hh => Host.noConfusion hh)]
            simp [obind]
          | hstring s =>
            rw [addFields_cons_inline_nonstruct _ _ _ _ _ hz
                (fun gs hh => Host.noConfusion hh),
              specEntries_cons_inline_nonstruct _ _ _ _ hz
                (fun gs hh => Host.noConfusion hh)]
            simp [obind]
          | hfloat bits =>
            rw [addFields_cons_inline_nonstruct _ _ _ _ _ hz
                (fun gs hh => Host.noConfusion hh),
              specEntries_cons_inline_nonstruct _ _ _ _ hz
                (fun gs hh => Host.noConfusion hh)]
            simp [obind]
          | hmarshaler w =>
            rw [addFields_cons_inline_nonstruct _ _ _ _ _ hz
                (fun gs hh => Host.noConfusion hh),
              specEntries_cons_inline_nonstruct _ _ _ _ hz
                (fun gs hh => Host.noConfusion hh)]
            simp [obind]
          | hptr p =>
            rw [addFields_cons_inline_nonstruct _ _ _ _ _ hz
                (fun gs hh => Host.noConfusion hh),
              specEntries_cons_inline_nonstruct _ _ _ _ hz
                (fun gs hh => Host.noConfusion hh)]
            simp [obind]
          | harr xs =>
            rw [addFields_cons_inline_nonstruct _ _ _ _ _ hz
                (fun gs hh => Host.noConfusion hh),
              specEntries_cons_inline_nonstruct _ _ _ _ hz
                (fun gs hh => Host.noConfusion hh)]
            simp [obind]
          | hmap es =>
            rw [addFields_cons_inline_nonstruct _ _ _ _ _ hz
                (fun gs hh => Host.noConfusion hh),
              specEntries_cons_inline_nonstruct _ _ _ _ hz
                (fun gs hh => Host.noConfusion hh)]
            simp [obind]
        | false =>
          rw [addFields_cons_plain _ _ _ _ _ hz, specEntries_cons_plain _ _ _ _ hz]
          cases htv : ToValue v with
          | none =>
            cases hsr : specEntries rest with
            | none => simp [obind]
            | some es2 => simp [obind, insertEntries, htv]
          | some w =>
            rw [show (match (some w : Option Value) with
                  | none => none
                  | some w2 => addFields (insertKV obj key w2) rest) =
                addFields (insertKV obj key w) rest from rfl]
            rw [addFields_eq_specEntries_aux N rest hrest (insertKV obj key w)]
            cases hsr : specEntries rest with
            | none => simp [obind]
            | some es2 => simp [obind, insertEntries, htv]

/-! ## Freshness of the heap deep copy -/

theorem getH_append_left {h tl : Heap} {i : Nat} (hi : i < h.length) :
    getH (h ++ tl) i = getH h i :=
  List.getElem?_append_left hi

theorem getH_concat_self (h : Heap) (nd : HNode) :
    getH (h ++ [nd]) h.length = some nd :=
  List.getElem?_concat_length h nd

theorem getH_set_ne {h : Heap} {i j : Nat} {nd : HNode} (hne : i ≠ j) :
    getH (setH h i nd) j = getH h j :=
  List.getElem?_set_ne hne

theorem AgreeOn.mono {h1 h2 : Heap} {lo hi lo2 hi2 : Nat}
    (h : AgreeOn h1 h2 lo hi) (hlo : lo ≤ lo2) (hhi : hi2 ≤ hi) :
    AgreeOn h1 h2 lo2 hi2 :=
  fun i a b => h i (le_trans hlo a) (lt_of_lt_of_le b hhi)

/-- Agreement with an extended heap transfers to its prefix when the
window lies inside the prefix. -/
theorem agree_front {hpre tl h2 : Heap} {lo hi : Nat}
    (hag : AgreeOn (hpre ++ tl) h2 lo hi) (hhi : hi ≤ hpre.length) :
    AgreeOn hpre h2 lo hi :=
  fun i a b => (hag i a b).trans (getH_append_left (lt_of_lt_of_le b hhi))

/-- A heap extension agrees with the base heap below the base's top. -/
theorem agree_append (hpre tl : Heap) {lo hi : Nat} (hhi : hi ≤ hpre.length) :
    AgreeOn hpre (hpre ++ tl) lo hi :=
  fun i a b => getH_append_left (lt_of_lt_of_le b hhi)

/-- Lists of fresh copies read back independently of the old part of the
heap, given that each individual copy does. -/
theorem copyListH_good (f : Nat) (hm : CopyGood f) : CopyGoodList f := by
  intro h as
  induction as generalizing h with
  | nil =>
    intro h1 as2 hcp
    simp only [copyListH, Option.some.injEq, Prod.mk.injEq] at hcp
    obtain ⟨rfl, rfl⟩ := hcp
    refine ⟨⟨[], by simp⟩, ?_⟩
    intro h2 hlen hag g
    rfl
  | cons a as ih =>
    intro h1 as2 hcp
    simp only [copyListH] at hcp
    cases hc1 : deepCopyH f h a with
    | none => rw [hc1] at hcp; simp at hcp
    | some pr =>
      obtain ⟨ha, a2⟩ := pr
      rw [hc1] at hcp
      dsimp only at hcp
      cases hc2 : copyListH (deepCopyH f) ha as with
      | none => rw [hc2] at hcp; simp at hcp
      | some pr2 =>
        obtain ⟨hb, as3⟩ := pr2
        rw [hc2] at hcp
        simp only [Option.some.injEq, Prod.mk.injEq] at hcp
        obtain ⟨rfl, rfl⟩ := hcp
        obtain ⟨⟨tl1, rfl⟩, ha2lo, ha2hi, hins1⟩ := hm h a ha a2 hc1
        obtain ⟨⟨tl2, rfl⟩, hins2⟩ := ih (h ++ tl1) hb as3 hc2
        refine ⟨⟨tl1 ++ tl2, by simp⟩, ?_⟩
        intro h2 hlen hag g
        have hlen1 : ((h ++ tl1) : Heap).length ≤ ((h ++ tl1) ++ tl2 : Heap).length := by
          simp
        have hd : valAtH g h2 a2 = valAtH g ((h ++ tl1) ++ tl2) a2 := by
          have e1 := hins1 h2 (le_trans hlen1 hlen)
            (agree_front (AgreeOn.mono hag le_rfl (by simp)) le_rfl) g
          have e2 := hins1 ((h ++ tl1) ++ tl2)
            hlen1 (agree_append (h ++ tl1) tl2 le_rfl) g
          rw [e1, e2]
        have ht : valListH (valAtH g) h2 as3 =
            valListH (valAtH g) ((h ++ tl1) ++ tl2) as3 :=
          hins2 h2 hlen (AgreeOn.mono hag (by simp) le_rfl) g
        simp only [valListH]
        rw [hd, ht]

/-- Entry lists of fresh copies read back independently of the old part
of the heap. -/
theorem copyEntriesH_good (f : Nat) (hm : CopyGood f) : CopyGoodEntries f := by
  intro h es
  induction es generalizing h with
  | nil =>
    intro h1 es2 hcp
    simp only [copyEntriesH, Option.some.injEq, Prod.mk.injEq] at hcp
    obtain ⟨rfl, rfl⟩ := hcp
    refine ⟨⟨[], by simp⟩, ?_⟩
    intro h2 hlen hag g
    rfl
  | cons ka es ih =>
    obtain ⟨k, a⟩ := ka
    intro h1 es2 hcp
    simp only [copyEntriesH] at hcp
    cases hc1 : deepCopyH f h a with
    | none => rw [hc1] at hcp; simp at hcp
    | some pr =>
      obtain ⟨ha, a2⟩ := pr
      rw [hc1] at hcp
      dsimp only at hcp
      cases hc2 : copyEntriesH (deepCopyH f) ha es with
      | none => rw [hc2] at hcp; simp at hcp
      | some pr2 =>
        obtain ⟨hb, es3⟩ := pr2
        rw [hc2] at hcp
        simp only [Option.some.injEq, Prod.mk.injEq] at hcp
        obtain ⟨rfl, rfl⟩ := hcp
        obtain ⟨⟨tl1, rfl⟩, ha2lo, ha2hi, hins1⟩ := hm h a ha a2 hc1
        obtain ⟨⟨tl2, rfl⟩, hins2⟩ := ih (h ++ tl1) hb es3 hc2
        refine ⟨⟨tl1 ++ tl2, by simp⟩, ?_⟩
        intro h2 hlen hag g
        have hlen1 : ((h ++ tl1) : Heap).length ≤ ((h ++ tl1) ++ tl2 : Heap).length := by
          simp
        have hd : valAtH g h2 a2 = valAtH g ((h ++ tl1) ++ tl2) a2 := by
          have e1 := hins1 h2 (le_trans hlen1 hlen)
            (agree_front (AgreeOn.mono hag le_rfl (by simp)) le_rfl) g
          have e2 := hins1 ((h ++ tl1) ++ tl2)
            hlen1 (agree_append (h ++ tl1) tl2 le_rfl) g
          rw [e1, e2]
        have ht : valEntriesH (valAtH g) h2 es3 =
            valEntriesH (valAtH g) ((h ++ tl1) ++ tl2) es3 :=
          hins2 h2 hlen (AgreeOn.mono hag (by simp) le_rfl) g
        simp only [valEntriesH]
        rw [hd, ht]

/-- The deep copy allocates only fresh nodes, so reading the copy back
does not depend on any address that existed before the copy. -/
theorem copyGood : ∀ f, CopyGood f := by
  intro f
  induction f with
  | zero =>
    intro h a h1 a2 hcp
    exact Option.noConfusion hcp
  | succ f ihf =>
    intro h a h1 a2 hcp
    simp only [deepCopyH] at hcp
    cases hga : getH h a with
    | none => rw [hga] at hcp; exact Option.noConfusion hcp
    | some nd =>
      rw [hga] at hcp
      cases nd with
      | nArr as =>
        dsimp only at hcp
        cases hcl : copyListH (deepCopyH f) h as with
        | none => rw [hcl] at hcp; simp at hcp
        | some pr =>
          obtain ⟨hl, as3⟩ := pr
          rw [hcl] at hcp
          simp only [allocH, Option.some.injEq, Prod.mk.injEq] at hcp
          obtain ⟨rfl, rfl⟩ := hcp
          obtain ⟨⟨tl, rfl⟩, hinsl⟩ := copyListH_good f ihf h as hl as3 hcl
          refine ⟨⟨tl ++ [.nArr as3], by simp⟩, by simp, by simp, ?_⟩
          intro h2 hlen hag g
          cases g with
          | zero => rfl
          | succ g =>
            have hnode : getH h2 ((h ++ tl : Heap).length) =
                getH ((h ++ tl) ++ [HNode.nArr as3])
                  ((h ++ tl : Heap).length) :=
              hag _ (by simp) (by simp)
            have hself : getH ((h ++ tl) ++ [HNode.nArr as3])
                ((h ++ tl : Heap).length) = some (.nArr as3) :=
              getH_concat_self (h ++ tl) (.nArr as3)
            have ht : valListH (valAtH g) h2 as3 =
                valListH (valAtH g) ((h ++ tl) ++ [HNode.nArr as3]) as3 := by
              have e1 := hinsl h2 (le_trans (by simp) hlen)
                (agree_front (AgreeOn.mono hag le_rfl (by simp)) le_rfl) g
              have e2 := hinsl ((h ++ tl) ++ [HNode.nArr as3]) (by simp)
                (agree_append (h ++ tl) [HNode.nArr as3] le_rfl) g
              rw [e1, e2]
            simp only [valAtH]
            rw [hnode, hself]
            dsimp only
            rw [ht]
      | nObj es =>
        dsimp only at hcp
        cases hcl : copyEntriesH (deepCopyH f) h es with
        | none => rw [hcl] at hcp; simp at hcp
        | some pr =>
          obtain ⟨hl, es3⟩ := pr
          rw [hcl] at hcp
          simp only [allocH, Option.some.injEq, Prod.mk.injEq] at hcp
          obtain ⟨rfl, rfl⟩ := hcp
          obtain ⟨⟨tl, rfl⟩, hinsl⟩ := copyEntriesH_good f ihf h es hl es3 hcl
          refine ⟨⟨tl ++ [.nObj es3], by simp⟩, by simp, by simp, ?_⟩
          intro h2 hlen hag g
          cases g with
          | zero => rfl
          | succ g =>
            have hnode : getH h2 ((h ++ tl : Heap).length) =
                getH ((h ++ tl) ++ [HNode.nObj es3])
                  ((h ++ tl : Heap).length) :=
              hag _ (by simp) (by simp)
            have hself : getH ((h ++ tl) ++ [HNode.nObj es3])
                ((h ++ tl : Heap).length) = some (.nObj es3) :=
              getH_concat_self (h ++ tl) (.nObj es3)
            have ht : valEntriesH (valAtH g) h2 es3 =
                valEntriesH (valAtH g) ((h ++ tl) ++ [HNode.nObj es3]) es3 := by
              have e1 := hinsl h2 (le_trans (by simp) hlen)
                (agree_front (AgreeOn.mono hag le_rfl (by simp)) le_rfl) g
              have e2 := hinsl ((h ++ tl) ++ [HNode.nObj es3]) (by simp)
                (agree_append (h ++ tl) [HNode.nObj es3] le_rfl) g
              rw [e1, e2]
            simp only [valAtH]
            rw [hnode, hself]
            dsimp only
            rw [ht]
      | nInt n =>
        dsimp only at hcp
        simp only [allocH, Option.some.injEq, Prod.mk.injEq] at hcp
        obtain ⟨rfl, rfl⟩ := hcp
        refine ⟨⟨[.nInt n], rfl⟩, le_rfl, by simp, ?_⟩
        intro h2 hlen hag g
        cases g with
        | zero => rfl
        | succ g =>
          have hnode : getH h2 h.length =
              getH (h ++ [HNode.nInt n]) h.length :=
            hag _ le_rfl (by simp)
          simp only [valAtH]
          rw [hnode, getH_concat_self]
      | nUint n =>
        dsimp only at hcp
        simp only [allocH, Option.some.injEq, Prod.mk.injEq] at hcp
        obtain ⟨rfl, rfl⟩ := hcp
        refine ⟨⟨[.nUint n], rfl⟩, le_rfl, by simp, ?_⟩
        intro h2 hlen hag g
        cases g with
        | zero => rfl
        | succ g =>
          have hnode : getH h2 h.length =
              getH (h ++ [HNode.nUint n]) h.length :=
            hag _ le_rfl (by simp)
          simp only [valAtH]
          rw [hnode, getH_concat_self]
      | nFloat b =>
        dsimp only at hcp
        simp only [allocH, Option.some.injEq, Prod.mk.injEq] at hcp
        obtain ⟨rfl, rfl⟩ := hcp
        refine ⟨⟨[.nFloat b], rfl⟩, le_rfl, by simp, ?_⟩
        intro h2 hlen hag g
        cases g with
        | zero => rfl
        | succ g =>
          have hnode : getH h2 h.length =
              getH (h ++ [HNode.nFloat b]) h.length :=
            hag _ le_rfl (by simp)
          simp only [valAtH]
          rw [hnode, getH_concat_self]
      | nString s =>
        dsimp only at hcp
        simp only [allocH, Option.some.injEq, Prod.mk.injEq] at hcp
        obtain ⟨rfl, rfl⟩ := hcp
        refine ⟨⟨[.nString s], rfl⟩, le_rfl, by simp, ?_⟩
        intro h2 hlen hag g
        cases g with
        | zero => rfl
        | succ g =>
          have hnode : getH h2 h.length =
              getH (h ++ [HNode.nString s]) h.length :=
            hag _ le_rfl (by simp)
          simp only [valAtH]
          rw [hnode, getH_concat_self]
      | nBool b =>
        dsimp only at hcp
        simp only [allocH, Option.some.injEq, Prod.mk.injEq] at hcp
        obtain ⟨rfl, rfl⟩ := hcp
        refine ⟨⟨[.nBool b], rfl⟩, le_rfl, by simp, ?_⟩
        intro h2 hlen hag g
        cases g with
        | zero => rfl
        | succ g =>
          have hnode : getH h2 h.length =
              getH (h ++ [HNode.nBool b]) h.length :=
            hag _ le_rfl (by simp)
          simp only [valAtH]
          rw [hnode, getH_concat_self]
      | nNil =>
        dsimp only at hcp
        simp only [allocH, Option.some.injEq, Prod.mk.injEq] at hcp
        obtain ⟨rfl, rfl⟩ := hcp
        refine ⟨⟨[.nNil], rfl⟩, le_rfl, by simp, ?_⟩
        intro h2 hlen hag g
        cases g with
        | zero => rfl
        | succ g =>
          have hnode : getH h2 h.length =
              getH (h ++ [HNode.nNil]) h.length :=
            hag _ le_rfl (by simp)
          simp only [valAtH]
          rw [hnode, getH_concat_self]

/-- Go map assignment on address entries puts the inserted address at the
key. -/
theorem lookupAddr_insertAddr :
    (es : List (List Nat × Nat)) → (k : List Nat) → (c : Nat) →
    lookupAddr (insertAddr es k c) k = some c
  | [], k, c => by simp [insertAddr, lookupAddr]
  | (k2, c2) :: t, k, c => by
    by_cases h : k2 = k
    · simp [insertAddr, h, lookupAddr]
    · simp [insertAddr, h, lookupAddr]
      exact lookupAddr_insertAddr t k c

/-! ## Claim theorems -/

/-- C1: the claim says `Lexer.Next` uses the byte→opcode table selected by
the mode, so that a lexer in mode S maps `'$'` (byte 36) to `Snew`.  The
code does not: `readOp` ignores its mode argument and consults table A
only (and the `Lexer` struct carries no mode at all), so byte 36 — which
table S maps to `Snew` and table A does not contain — is silently skipped
in every mode, and `Next` on the one-byte input `"$"` just reaches end of
input. -/
theorem c1_lexer_ignores_mode :
    readOp Mode.S 36 = none
    ∧ lookupTable opTableS 36 = some Op.Snew
    ∧ readOp Mode.A 36 = none
    ∧ lexerNext [36] = none := by decide

/-- C2 (counterexample): the claim says each table is total over all 23
opcodes including `Itou`; in fact no byte is mapped to `Itou` in either
table, and `showOp` (which would panic, modelled as `none`) has no byte
for it. -/
theorem c2_itou_missing :
    (opTableA.map Prod.snd).count Op.Itou = 0
    ∧ (opTableS.map Prod.snd).count Op.Itou = 0
    ∧ showOp Mode.A Op.Itou = none
    ∧ showOp Mode.S Op.Itou = none := by decide

/-- C2 (amended): both byte→opcode tables are injective (no opcode is hit
by two bytes, and the byte keys are pairwise distinct) and total over the
22 opcodes other than `Itou`: every such opcode has exactly one byte in
table A and exactly one in table S. -/
theorem c2_tables_total_injective_without_itou :
    (∀ op : Op, op ≠ Op.Itou →
      (opTableA.map Prod.snd).count op = 1
      ∧ (opTableS.map Prod.snd).count op = 1)
    ∧ (opTableA.map Prod.fst).Nodup
    ∧ (opTableS.map Prod.fst).Nodup
    ∧ (opTableA.map Prod.snd).Nodup
    ∧ (opTableS.map Prod.snd).Nodup := by
  refine ⟨?_, by decide, by decide, by decide, by decide⟩
  decide

/-- C2 (witness): the amended totality at the concrete opcode `Inew`. -/
theorem c2_tables_total_injective_without_itou_witness :
    (opTableA.map Prod.snd).count Op.Inew = 1
    ∧ (opTableS.map Prod.snd).count Op.Inew = 1 :=
  c2_tables_total_injective_without_itou.1 Op.Inew (by decide)

/-- C3 (counterexample): the claim says a failed typed pop leaves the
visible top unchanged.  On the stack holding exactly `Bool(true)`,
feeding `Iinc` returns `TypeMismatch` but pops the value: `Top` answered
`Bool(true)` before and `StackEmpty` after. -/
theorem c3_top_changes_on_mismatch :
    Top ⟨2, [.vbool true]⟩ = .ok (.vbool true)
    ∧ Feed .Iinc ⟨2, [.vbool true]⟩ = .err ⟨2, []⟩ .typeMismatch
    ∧ Top ⟨2, []⟩ = .error .stackEmpty := ⟨rfl, rfl, rfl⟩

/-- C3 (amended): when the value examined by an opcode's first typed pop
has the wrong kind, `Feed` returns `TypeMismatch`, but the values popped
up to that point (including the mismatched one) are gone: the machine is
left with exactly the part of the stack below them, so the visible top
afterwards is the next element down (or the stack is empty).  For `Iinc`,
`Ishl`, `Sadd`, `Fneg`, `Bneg` the first typed pop examines the top; for
`Oadd` and `Aadd` the first pop takes any value and the first typed pop
examines the element below it. -/
theorem c3_typed_pop_mismatch (vm : VM) (v : Value) (rest : List Value)
    (hst : vm.elems = v :: rest) :
    Top vm = .ok v
    ∧ ((∀ n, v ≠ .vint n) →
        Feed .Iinc vm = .err ⟨vm.cap, rest⟩ .typeMismatch
        ∧ Feed .Ishl vm = .err ⟨vm.cap, rest⟩ .typeMismatch
        ∧ Feed .Sadd vm = .err ⟨vm.cap, rest⟩ .typeMismatch)
    ∧ ((∀ b, v ≠ .vfloat b) → Feed .Fneg vm = .err ⟨vm.cap, rest⟩ .typeMismatch)
    ∧ ((∀ b, v ≠ .vbool b) → Feed .Bneg vm = .err ⟨vm.cap, rest⟩ .typeMismatch)
    ∧ (∀ w rest2, rest = w :: rest2 →
        ((∀ s, w ≠ .vstring s) →
          Feed .Oadd vm = .err ⟨vm.cap, rest2⟩ .typeMismatch)
        ∧ ((∀ xs, w ≠ .varr xs) →
          Feed .Aadd vm = .err ⟨vm.cap, rest2⟩ .typeMismatch)) := by
  obtain ⟨cap, elems⟩ := vm
  simp only at hst
  subst hst
  refine ⟨rfl, ?_, ?_, ?_, ?_⟩
  · intro h
    exact ⟨mBind_err (popInt_not_int h), mBind_err (popInt_not_int h),
      mBind_err (popInt_not_int h)⟩
  · intro h
    exact mBind_err (popFloat_not_float h)
  · intro h
    exact mBind_err (popBool_not_bool h)
  · intro w rest2 hr
    subst hr
    constructor
    · intro h
      have h1 : Feed .Oadd ⟨cap, v :: w :: rest2⟩ =
          (do
            let k ← popString
            let o ← popObject
            push (.vobj (insertKV o k (DeepCopy v)))) ⟨cap, w :: rest2⟩ :=
        mBind_ok pop_cons
      rw [h1]
      exact mBind_err (popString_not_string h)
    · intro h
      have h1 : Feed .Aadd ⟨cap, v :: w :: rest2⟩ =
          (do
            let a ← popArray
            push (.varr (a ++ [DeepCopy v]))) ⟨cap, w :: rest2⟩ :=
        mBind_ok pop_cons
      rw [h1]
      exact mBind_err (popArray_not_array h)

/-- C3 (witness): the amended behavior at a concrete two-element stack:
feeding `Iinc` over a `Bool` top pops it, leaving the `Int` below
visible. -/
theorem c3_typed_pop_mismatch_witness :
    Top ⟨3, [.vbool true, .vint 7]⟩ = .ok (.vbool true)
    ∧ Feed .Iinc ⟨3, [.vbool true, .vint 7]⟩ =
        .err ⟨3, [.vint 7]⟩ .typeMismatch :=
  ⟨(c3_typed_pop_mismatch ⟨3, [.vbool true, .vint 7]⟩ (.vbool true)
      [.vint 7] rfl).1,
   ((c3_typed_pop_mismatch ⟨3, [.vbool true, .vint 7]⟩ (.vbool true)
      [.vint 7] rfl).2.1 (fun n h => Value.noConfusion h)).1⟩

/-- C4: the claim says `Isht` pushes the arithmetic shift for every b
including b = −2^63.  At b = −2^63 the code instead panics: `-b` is a
wrapping int64 negation, so `-(-2^63)` is again `-2^63` and Go aborts on
the negative shift count (both operands having been popped).  At an
ordinary negative b the arithmetic right shift is performed, e.g.
5 >> 1 = 2. -/
theorem c4_isht_min_int64_panics :
    Feed .Isht ⟨4, [.vint (-(2 ^ 63)), .vint 1]⟩ = .crashed ⟨4, []⟩
    ∧ Feed .Isht ⟨4, [.vint (-1), .vint 5]⟩ = .ok ⟨4, [.vint 2]⟩ () :=
  ⟨rfl, rfl⟩

/-- C5: feeding `Itof` over Int(n) pushes the Float whose binary64 bit
pattern (which is what the `vfloat` payload carries, so reading the
pushed Float's bits yields exactly this number) is `uint64(n)`, the
unsigned reinterpretation of n; feeding `Itou` pushes
Uint(uint64(n)). -/
theorem c5_itof_itou_preserve_bits (vm : VM) (n : Int) (rest : List Value)
    (hst : vm.elems = .vint n :: rest) (hcap : vm.elems.length ≤ vm.cap)
    (hlo : -(2 ^ 63) ≤ n) (hhi : n < 2 ^ 63) :
    Feed .Itof vm = .ok ⟨vm.cap, .vfloat (toUint64 n) :: rest⟩ ()
    ∧ Feed .Itou vm = .ok ⟨vm.cap, .vuint (toUint64 n) :: rest⟩ () := by
  obtain ⟨cap, elems⟩ := vm
  simp only at hst hcap
  subst hst
  have hlen : rest.length < cap := by
    simpa using hcap
  constructor
  · have h1 : Feed .Itof ⟨cap, .vint n :: rest⟩ =
        pushFloat (toUint64 n) ⟨cap, rest⟩ :=
      mBind_ok (show popInt ⟨cap, .vint n :: rest⟩ = .ok ⟨cap, rest⟩ n from rfl)
    rw [h1]
    exact push_lt hlen
  · have h1 : Feed .Itou ⟨cap, .vint n :: rest⟩ =
        pushUint (toUint64 n) ⟨cap, rest⟩ :=
      mBind_ok (show popInt ⟨cap, .vint n :: rest⟩ = .ok ⟨cap, rest⟩ n from rfl)
    rw [h1]
    exact push_lt hlen

/-- C5 (witness): at n = −1 both opcodes produce the 64-bit pattern
2^64 − 1. -/
theorem c5_itof_itou_preserve_bits_witness :
    Feed .Itof ⟨2, [.vint (-1)]⟩ = .ok ⟨2, [.vfloat (2 ^ 64 - 1)]⟩ ()
    ∧ Feed .Itou ⟨2, [.vint (-1)]⟩ = .ok ⟨2, [.vuint (2 ^ 64 - 1)]⟩ () := by
  have h := c5_itof_itou_preserve_bits ⟨2, [.vint (-1)]⟩ (-1) [] rfl
    (by simp) (by norm_num) (by norm_num)
  have hb : toUint64 (-1) = 2 ^ 64 - 1 := by decide
  rw [hb] at h
  exact h

/-- C6: feeding `Oadd` over a stack whose top three values are any v, a
String k and an Object o pops all three and pushes o with a deep copy of v
stored at key k, overwriting any previous entry at k.  The first part
states this on the pure value model (where a deep copy equals the
original).  The second part states the independence of the stored entry on
the heap model: the entry added under k is a fresh address (at or above
the old heap top), and overwriting any pre-existing address — in
particular v itself or anything reachable from it — does not change the
value read back from the stored entry. -/
theorem c6_oadd_deep_copy :
    (∀ (vm : VM) (v : Value) (k : List Nat) (es : List (List Nat × Value))
        (rest : List Value),
      vm.elems = v :: .vstring k :: .vobj es :: rest →
      vm.elems.length ≤ vm.cap →
      Feed .Oadd vm = .ok ⟨vm.cap, .vobj (insertKV es k v) :: rest⟩ ()
      ∧ lookupKV (insertKV es k v) k = some v)
    ∧
    (∀ (fuel : Nat) (s : HVM) (av ak ao : Nat) (kb : List Nat)
        (es : List (List Nat × Nat)) (rest : List Nat) (h1 : Heap) (c : Nat),
      s.elems = av :: ak :: ao :: rest →
      getH s.heap ak = some (.nString kb) →
      getH s.heap ao = some (.nObj es) →
      rest.length < s.cap →
      deepCopyH fuel s.heap av = some (h1, c) →
      feedOaddH fuel s =
        some (.okH ⟨s.cap, (allocH h1 (.nObj (insertAddr es kb c))).2 :: rest,
          (allocH h1 (.nObj (insertAddr es kb c))).1⟩)
      ∧ lookupAddr (insertAddr es kb c) kb = some c
      ∧ s.heap.length ≤ c
      ∧ ∀ (i : Nat) (nd : HNode) (g : Nat), i < s.heap.length →
          valAtH g (setH (allocH h1 (.nObj (insertAddr es kb c))).1 i nd) c
            = valAtH g (allocH h1 (.nObj (insertAddr es kb c))).1 c) := by
  constructor
  · intro vm v k es rest hst hcap
    obtain ⟨cap, elems⟩ := vm
    simp only at hst hcap
    subst hst
    have hlen : rest.length < cap := by
      simp at hcap
      omega
    constructor
    · have h1 : Feed .Oadd ⟨cap, v :: .vstring k :: .vobj es :: rest⟩ =
          (do
            let k2 ← popString
            let o ← popObject
            push (.vobj (insertKV o k2 (DeepCopy v))))
            ⟨cap, .vstring k :: .vobj es :: rest⟩ :=
        mBind_ok pop_cons
      rw [h1]
      have h2 : (do
            let k2 ← popString
            let o ← popObject
            push (.vobj (insertKV o k2 (DeepCopy v))) : M Unit)
            ⟨cap, .vstring k :: .vobj es :: rest⟩ =
          (do
            let o ← popObject
            push (.vobj (insertKV o k (DeepCopy v)))) ⟨cap, .vobj es :: rest⟩ :=
        mBind_ok rfl
      rw [h2]
      have h3 : (do
            let o ← popObject
            push (.vobj (insertKV o k (DeepCopy v))) : M Unit)
            ⟨cap, .vobj es :: rest⟩ =
          push (.vobj (insertKV es k (DeepCopy v))) ⟨cap, rest⟩ :=
        mBind_ok rfl
      rw [h3, DeepCopy_eq]
      exact push_lt hlen
    · exact lookupKV_insertKV es k v
  · intro fuel s av ak ao kb es rest h1 c hst hk ho hlen hcopy
    obtain ⟨cap, elems, heap⟩ := s
    simp only at hst hk ho hlen hcopy ⊢
    subst hst
    obtain ⟨⟨tl, rfl⟩, hclo, hchi, hins⟩ := copyGood fuel heap av _ c hcopy
    refine ⟨?_, lookupAddr_insertAddr es kb c, hclo, ?_⟩
    · dsimp only [feedOaddH]
      rw [hk]
      dsimp only
      rw [ho]
      dsimp only
      rw [hcopy]
      dsimp only
      rw [if_neg (not_le.mpr hlen)]
    · intro i nd g hi
      have hlag : AgreeOn (heap ++ tl)
          ((heap ++ tl) ++ [HNode.nObj (insertAddr es kb c)])
          heap.length (heap ++ tl).length :=
        agree_append (heap ++ tl) [HNode.nObj (insertAddr es kb c)] le_rfl
      have hsag : AgreeOn (heap ++ tl)
          (setH ((heap ++ tl) ++ [HNode.nObj (insertAddr es kb c)]) i nd)
          heap.length (heap ++ tl).length := by
        intro j hlo hhi
        have hij : i ≠ j := by omega
        rw [getH_set_ne hij]
        exact hlag j hlo hhi
      have e1 := hins (setH ((heap ++ tl) ++ [HNode.nObj (insertAddr es kb c)]) i nd)
        (by simp [setH]) hsag g
      have e2 := hins ((heap ++ tl) ++ [HNode.nObj (insertAddr es kb c)])
        (by simp) hlag g
      dsimp only [allocH]
      rw [e1, e2]

/-- C6 (witness): concrete runs of both parts.  Pure: `Oadd` over
Int(7), String "a", Object {"a": Nil} overwrites the entry.  Heap: the
value Int(5) at address 0 is copied to fresh address 3 and stored in a
fresh object node at address 4 under key "a"; overwriting address 0 with
Int(99) afterwards leaves the readback of the stored entry at Int(5). -/
theorem c6_oadd_deep_copy_witness :
    Feed .Oadd ⟨4, [.vint 7, .vstring [97], .vobj [([97], .vnil)]]⟩ =
      .ok ⟨4, [.vobj [([97], .vint 7)]]⟩ ()
    ∧ feedOaddH 1 ⟨4, [0, 1, 2], [.nInt 5, .nString [97], .nObj []]⟩ =
        some (.okH ⟨4, [4], [.nInt 5, .nString [97], .nObj [],
          .nInt 5, .nObj [([97], 3)]]⟩)
    ∧ valAtH 3 (setH [.nInt 5, .nString [97], .nObj [], .nInt 5,
          .nObj [([97], 3)]] 0 (.nInt 99)) 3
        = valAtH 3 [.nInt 5, .nString [97], .nObj [], .nInt 5,
          .nObj [([97], 3)]] 3 := by
  have hp := c6_oadd_deep_copy.1
    ⟨4, [.vint 7, .vstring [97], .vobj [([97], .vnil)]]⟩
    (.vint 7) [97] [([97], .vnil)] [] rfl (by simp)
  have hh := c6_oadd_deep_copy.2 1
    ⟨4, [0, 1, 2], [.nInt 5, .nString [97], .nObj []]⟩
    0 1 2 [97] [] []
    [.nInt 5, .nString [97], .nObj [], .nInt 5] 3
    rfl rfl rfl (by decide) rfl
  exact ⟨hp.1, hh.1, hh.2.2.2 0 (.nInt 99) 3 (by decide)⟩

/-- C7: the bridge's conversion applies nil first and the marshal
capability before every primitive or structural rule: `ToValue` maps the
nil interface to Nil, and any non-nil value implementing `Marshaler` to
exactly the result of its `MarshalWatson()` — both in the type-switch
entry point `ToValue` (where Go's dynamic typing makes the marshaler case
disjoint from the builtin primitive cases) and in `ToValueByReflection`
(whose `isMarshaler` test is textually first). -/
theorem c7_nil_then_marshal_precedence :
    ToValue .hnil = some .vnil
    ∧ (∀ w : Value, ToValue (.hmarshaler w) = some w)
    ∧ (∀ w : Value, ToValueByReflection (.hmarshaler w) = some w) := by
  refine ⟨?_, fun w => ?_, fun w => ?_⟩
  · rw [ToValue.eq_def]
  · rw [ToValue.eq_def]
  · rw [ToValueByReflection.eq_def]

/-- C8: converting a struct builds its Object by the tag rules: the
entries are exactly `specEntries` — which omits every field whose tag name
is `-`, omits every `omitempty` field whose value is its type's zero
value, recursively promotes the fields of an `inline` field (which must
itself be a struct) in place, and emits every other field under its key —
inserted in order into the object being built. -/
theorem c8_struct_tag_rules (fs : List SField) (obj : List (List Nat × Value)) :
    addFields obj fs = obind (specEntries fs) (insertEntries obj)
    ∧ ToValue (.hstruct fs) =
        (match addFields [] fs with
          | none => none
          | some o => some (.vobj o)) := by
  refine ⟨addFields_eq_specEntries_aux (sizeOf fs) fs le_rfl obj, ?_⟩
  rw [ToValue.eq_def]
  dsimp only
  rw [ToValueByReflection.eq_def]
  dsimp only
  rw [structToValueByReflection.eq_def]

/-- C9: with the fixed stack capacity C: a pop or Top on the empty stack
(sp < 0, i.e. no live elements) returns `StackEmpty`; a push when the
stack already holds C values returns `StackOverflow`
(`ErrMaximumStackSizeExceeded`); a push onto at most C−1 values
succeeds. -/
theorem c9_stack_bounds (vm : VM) (v : Value) :
    (vm.elems = [] → pop vm = .err vm .stackEmpty
      ∧ Top vm = .error .stackEmpty)
    ∧ (vm.elems.length = vm.cap → push v vm = .err vm .maxStackSizeExceeded)
    ∧ (vm.elems.length + 1 ≤ vm.cap →
        push v vm = .ok ⟨vm.cap, v :: vm.elems⟩ ()) := by
  obtain ⟨cap, elems⟩ := vm
  refine ⟨?_, ?_, ?_⟩
  · intro h
    simp only at h
    subst h
    exact ⟨rfl, rfl⟩
  · intro h
    simp only at h
    simp [push, h]
  · intro h
    simp only at h
    exact push_lt (by omega)

/-- C9 (witness): the three bounds at concrete machines of capacity 3, 1
and 2. -/
theorem c9_stack_bounds_witness :
    pop ⟨3, []⟩ = .err ⟨3, []⟩ .stackEmpty
    ∧ push (.vint 0) ⟨1, [.vnil]⟩ = .err ⟨1, [.vnil]⟩ .maxStackSizeExceeded
    ∧ push (.vint 0) ⟨2, [.vnil]⟩ = .ok ⟨2, [.vint 0, .vnil]⟩ () :=
  ⟨((c9_stack_bounds ⟨3, []⟩ (.vint 0)).1 rfl).1,
   (c9_stack_bounds ⟨1, [.vnil]⟩ (.vint 0)).2.1 rfl,
   (c9_stack_bounds ⟨2, [.vnil]⟩ (.vint 0)).2.2 (by simp)⟩

/-- C10: feeding `Gswp` to a machine whose stack holds exactly one value
returns `StackEmpty`, and the single value has already been popped and
discarded: the machine is left with an empty stack. -/
theorem c10_gswp_singleton_not_atomic (c : Nat) (v : Value) :
    Feed .Gswp ⟨c, [v]⟩ = .err ⟨c, []⟩ .stackEmpty := rfl

end Watson
